import Mathlib

/-!
Shallow embedding of `weak-ref-collections` (src/index.js): the classes
`WeakRefMap` and `WeakRefSet`.  Heap objects are modelled by numeric
identities; reclamation is modelled by a liveness predicate `alive` on
object identities together with an explicit step that fires a pending
finalization-registry callback for a dead referent.  The underlying
`Map`/`Set` storage is modelled as an insertion-ordered association list,
`WeakRef` wrappers as slots carrying their own identity (`refId`) and the
identity of their referent, the `#weakRefs` side table as a list of
wrapper identities, and the `FinalizationRegistry` as a list of
registration cells `(target, token, unregisterToken)`.
-/

namespace WeakRefCollections

/-- JS primitive payloads as the library distinguishes them: `undefined`
(`typeof value === 'undefined'`) versus any other primitive. -/
inductive Prim where
  | undef
  | val (n : Nat)
deriving DecidableEq, Repr

/-- A value passed to `set`/`add`: a heap object (identified by its
identity) or a primitive.  `typeof value === 'object' && value !== null`
holds exactly for `obj`. -/
inductive JsValue where
  | obj (id : Nat)
  | prim (p : Prim)
deriving DecidableEq, Repr

/-- A slot stored in the underlying `Map`/`Set`: either a container-created
`WeakRef` wrapper (own identity `refId`, referent identity `target`) or a
raw primitive.  `set`/`add` wrap every object value, so these are the only
two shapes a stored slot can take. -/
inductive Slot where
  | ref (refId : Nat) (target : Nat)
  | raw (p : Prim)
deriving DecidableEq, Repr

/-- What a read or an iteration step can produce: the JS `undefined`,
a primitive, a live referent, or (for a wrapper slot that is not in the
`#weakRefs` side table) the wrapper object itself, returned verbatim. -/
inductive ObsValue where
  | undef
  | prim (n : Nat)
  | obj (id : Nat)
  | wrapper (refId : Nat) (target : Nat)
deriving DecidableEq, Repr

/-- The observation a raw primitive slot produces. -/
def obsOfPrim : Prim → ObsValue
  | Prim.undef => ObsValue.undef
  | Prim.val n => ObsValue.prim n

/-- The observation `Map.prototype.get` produces from an optional primitive
(absent keys read as `undefined`). -/
def obsOfGet : Option Prim → ObsValue
  | none => ObsValue.undef
  | some p => obsOfPrim p

/-- `Map.prototype.get` on the underlying storage. -/
def superGet : List (Nat × Slot) → Nat → Option Slot
  | [], _ => none
  | kv :: rest, key => if kv.1 = key then some kv.2 else superGet rest key

/-- `Map.prototype.set` on the underlying storage: update in place if the
key is present (preserving insertion order), otherwise append. -/
def superSet : List (Nat × Slot) → Nat → Slot → List (Nat × Slot)
  | [], key, slot => [(key, slot)]
  | kv :: rest, key, slot =>
      if kv.1 = key then (kv.1, slot) :: rest else kv :: superSet rest key slot

/-- `Map.prototype.delete` on the underlying storage (row removal part). -/
def superDelete : List (Nat × Slot) → Nat → List (Nat × Slot)
  | [], _ => []
  | kv :: rest, key => if kv.1 = key then rest else kv :: superDelete rest key

/-- `Set.prototype.add` on the underlying storage: append unless present. -/
def superAdd (l : List Slot) (x : Slot) : List Slot :=
  if x ∈ l then l else l ++ [x]

/-- `Set.prototype.delete` on the underlying storage (row removal part). -/
def superDeleteElem : List Slot → Slot → List Slot
  | [], _ => []
  | y :: rest, x => if y = x then rest else y :: superDeleteElem rest x

/-- A `FinalizationRegistry` cell of the map: `register(value, key, ref)`
stores the referent identity, the token handed to the callback (the map
key) and the unregister token (the wrapper identity). -/
structure Reg where
  target : Nat
  token : Nat
  unregToken : Nat
deriving DecidableEq, Repr

/-- State of a `WeakRefMap` (src/index.js lines 6-131): the inherited
`Map` rows, the `#weakRefs` side table (identities of container-created
wrappers), the `#registry` cells, and a counter supplying fresh wrapper
identities. -/
structure MapState where
  rows : List (Nat × Slot)
  weakRefs : List Nat
  registry : List Reg
  nextRef : Nat
deriving DecidableEq, Repr

def MapState.empty : MapState := ⟨[], [], [], 0⟩

/-- `WeakRefMap.set` (lines 34-51): if the old slot is a tracked wrapper,
unregister it and drop it from `#weakRefs`; then either wrap an object
value in a fresh `WeakRef` (registering it for finalization and tracking
it) or store a primitive directly. -/
def MapState.set (s : MapState) (key : Nat) (v : JsValue) : MapState :=
  let s1 :=
    match superGet s.rows key with
    | some (Slot.ref rid _) =>
        if rid ∈ s.weakRefs then
          { s with registry := s.registry.filter (fun r => r.unregToken != rid),
                   weakRefs := s.weakRefs.filter (fun x => x != rid) }
        else s
    | _ => s
  match v with
  | JsValue.obj oid =>
      { s1 with
        rows := superSet s1.rows key (Slot.ref s1.nextRef oid),
        registry := s1.registry ++ [⟨oid, key, s1.nextRef⟩],
        weakRefs := s1.weakRefs ++ [s1.nextRef],
        nextRef := s1.nextRef + 1 }
  | JsValue.prim p => { s1 with rows := superSet s1.rows key (Slot.raw p) }

/-- `WeakRefMap.get` (lines 53-59): read the raw slot; if it is a tracked
wrapper, deref it (a dead referent reads as `undefined`); otherwise return
the raw slot.  The method body performs no mutation, so it is a pure
function of the state. -/
def MapState.get (s : MapState) (alive : Nat → Bool) (key : Nat) : ObsValue :=
  match superGet s.rows key with
  | none => ObsValue.undef
  | some (Slot.raw p) => obsOfPrim p
  | some (Slot.ref rid tgt) =>
      if rid ∈ s.weakRefs then
        (if alive tgt then ObsValue.obj tgt else ObsValue.undef)
      else ObsValue.wrapper rid tgt

/-- `WeakRefMap.has` (lines 61-73): a tracked wrapper answers by liveness
of its referent; anything else falls through to `Map.prototype.has`, so a
key explicitly set to `undefined` still answers `true`.  No mutation. -/
def MapState.has (s : MapState) (alive : Nat → Bool) (key : Nat) : Bool :=
  match superGet s.rows key with
  | some (Slot.ref rid tgt) => if rid ∈ s.weakRefs then alive tgt else true
  | some (Slot.raw _) => true
  | none => false

/-- `WeakRefMap.delete` (lines 75-93): for a tracked wrapper, unregister,
drop from `#weakRefs`, remove the row, and report whether the referent was
still live; otherwise delegate to `Map.prototype.delete`. -/
def MapState.delete (s : MapState) (alive : Nat → Bool) (key : Nat) : Bool × MapState :=
  match superGet s.rows key with
  | some (Slot.ref rid tgt) =>
      if rid ∈ s.weakRefs then
        (alive tgt,
         { s with registry := s.registry.filter (fun r => r.unregToken != rid),
                  weakRefs := s.weakRefs.filter (fun x => x != rid),
                  rows := superDelete s.rows key })
      else (true, { s with rows := superDelete s.rows key })
  | some (Slot.raw _) => (true, { s with rows := superDelete s.rows key })
  | none => (false, s)

/-- `WeakRefMap.clear` (lines 95-101): swaps in a fresh
`FinalizationRegistry` and a fresh `#weakRefs` table and clears the
underlying rows.  Nothing is unregistered by this: a cell of the old
registry whose referent already died and whose cleanup the host already
enqueued can still fire its `key => super.delete(key)` callback
afterwards, so outstanding cells are kept.  The fresh-identity counter is
global to the heap and survives. -/
def MapState.clear (s : MapState) : MapState :=
  { s with rows := [], weakRefs := [] }

/-- The finalization callback of the map (lines 10-12): when a registered
referent has been reclaimed the runtime may run `key => super.delete(key)`
for its cell, consuming the cell.  Firing is a no-op unless the cell is
still registered and the referent is dead. -/
def MapState.fireCallback (s : MapState) (alive : Nat → Bool) (reg : Reg) : MapState :=
  if reg ∈ s.registry ∧ alive reg.target = false then
    { s with rows := superDelete s.rows reg.token,
             registry := s.registry.erase reg }
  else s

/-- One step of the default iterator (lines 109-118) on one raw row:
a tracked wrapper is deref'd and skipped when dead; anything else is
yielded as-is. -/
def MapState.liveEntry (s : MapState) (alive : Nat → Bool) (kv : Nat × Slot) :
    Option (Nat × ObsValue) :=
  match kv.2 with
  | Slot.ref rid tgt =>
      if rid ∈ s.weakRefs then
        (if alive tgt then some (kv.1, ObsValue.obj tgt) else none)
      else some (kv.1, ObsValue.wrapper rid tgt)
  | Slot.raw p => some (kv.1, obsOfPrim p)

/-- The full sequence produced by one pass of the default iterator /
`entries` (lines 109-123): live entries only, in insertion order. -/
def MapState.iterList (s : MapState) (alive : Nat → Bool) : List (Nat × ObsValue) :=
  s.rows.filterMap (s.liveEntry alive)

/-- `WeakRefMap` does not override `keys`, so `keys()` is the inherited
`Map.prototype.keys`: it yields the keys of every raw row, dead or live. -/
def MapState.inheritedKeys (s : MapState) : List Nat :=
  s.rows.map (fun kv => kv.1)

/-- `WeakRefMap` does not override `size` either: the inherited
`Map.prototype.size` reports the raw row count. -/
def MapState.size (s : MapState) : Nat := s.rows.length

/-- Well-formedness of a map state, as established by the operations:
tracked wrapper identities are below the freshness counter, and every
registry cell still corresponds to its tracked row. -/
def MapState.WF (s : MapState) : Prop :=
  (∀ r ∈ s.weakRefs, r < s.nextRef) ∧
  (∀ reg ∈ s.registry, reg.unregToken ∈ s.weakRefs ∧
      superGet s.rows reg.token = some (Slot.ref reg.unregToken reg.target))

instance (s : MapState) : Decidable s.WF := by
  unfold MapState.WF
  infer_instance

/-- A `FinalizationRegistry` cell of the set: `register(value, ref, ref)`
uses the wrapper both as callback token and as unregister token. -/
structure SReg where
  target : Nat
  refId : Nat
deriving DecidableEq, Repr

/-- State of a `WeakRefSet` (src/index.js lines 134-245): the inherited
`Set` elements, the `#membership` weak map from referent identity to its
wrapper identity, the `#registry` cells, and the freshness counter. -/
structure SetState where
  elems : List Slot
  membership : List (Nat × Nat)
  registry : List SReg
  nextRef : Nat
deriving DecidableEq, Repr

def SetState.empty : SetState := ⟨[], [], [], 0⟩

/-- `WeakMap.prototype.get` on the `#membership` side table. -/
def memLookup : List (Nat × Nat) → Nat → Option Nat
  | [], _ => none
  | m :: rest, oid => if m.1 = oid then some m.2 else memLookup rest oid

/-- `WeakMap.prototype.set` on the `#membership` side table. -/
def memSet : List (Nat × Nat) → Nat → Nat → List (Nat × Nat)
  | [], oid, rid => [(oid, rid)]
  | m :: rest, oid, rid =>
      if m.1 = oid then (m.1, rid) :: rest else m :: memSet rest oid rid

/-- `this.#membership.has(value)`: only a heap object can be a `WeakMap`
key, so a primitive argument always answers `false`. -/
def SetState.membershipHas (t : SetState) (v : JsValue) : Bool :=
  match v with
  | JsValue.obj oid => (memLookup t.membership oid).isSome
  | JsValue.prim _ => false

/-- `WeakRefSet.add` (lines 156-172): a value already in `#membership` is
a no-op; an object value is wrapped in a fresh `WeakRef`, recorded in
`#membership`, registered for finalization and added; a primitive is added
directly. -/
def SetState.add (t : SetState) (v : JsValue) : SetState :=
  if t.membershipHas v then t
  else
    match v with
    | JsValue.obj oid =>
        { t with
          membership := memSet t.membership oid t.nextRef,
          registry := t.registry ++ [⟨oid, t.nextRef⟩],
          elems := superAdd t.elems (Slot.ref t.nextRef oid),
          nextRef := t.nextRef + 1 }
    | JsValue.prim p => { t with elems := superAdd t.elems (Slot.raw p) }

/-- `WeakRefSet.has` (lines 174-187): for an object, consult `#membership`
and deref the recorded wrapper (which targets that very object); for a
primitive, `Set.prototype.has`.  No mutation. -/
def SetState.has (t : SetState) (alive : Nat → Bool) (v : JsValue) : Bool :=
  match v with
  | JsValue.obj oid =>
      match memLookup t.membership oid with
      | none => false
      | some _ => alive oid
  | JsValue.prim p => decide (Slot.raw p ∈ t.elems)

/-- `WeakRefSet.delete` (lines 189-205): for an object with a recorded
wrapper, drop the membership entry, unregister, remove the wrapper element
and report liveness of the referent; for a primitive, delegate to
`Set.prototype.delete`. -/
def SetState.delete (t : SetState) (alive : Nat → Bool) (v : JsValue) : Bool × SetState :=
  match v with
  | JsValue.obj oid =>
      match memLookup t.membership oid with
      | none => (false, t)
      | some rid =>
          (alive oid,
           { t with
             membership := t.membership.filter (fun m => m.1 != oid),
             registry := t.registry.filter (fun r => r.refId != rid),
             elems := superDeleteElem t.elems (Slot.ref rid oid) })
  | JsValue.prim p =>
      (decide (Slot.raw p ∈ t.elems),
       { t with elems := superDeleteElem t.elems (Slot.raw p) })

/-- `WeakRefSet.clear` (lines 207-213): fresh `#membership`, fresh
registry, cleared storage.  As in the map, the swap unregisters nothing,
so outstanding cells of the old registry are kept (their stale callbacks
target the old wrapper elements, which are gone from storage). -/
def SetState.clear (t : SetState) : SetState :=
  { t with elems := [], membership := [] }

/-- The finalization callback of the set (lines 142-144): for a cell whose
referent is dead the runtime may run `ref => super.delete(ref)`, consuming
the cell; by that time the dead referent is also gone from the weak-keyed
`#membership`. -/
def SetState.fireCallback (t : SetState) (alive : Nat → Bool) (reg : SReg) : SetState :=
  if reg ∈ t.registry ∧ alive reg.target = false then
    { t with elems := superDeleteElem t.elems (Slot.ref reg.refId reg.target),
             registry := t.registry.erase reg,
             membership := t.membership.filter (fun m => m.1 != reg.target) }
  else t

/-- One step of the set's default iterator (lines 225-233) on one stored
element: any `WeakRef` (`instanceof` check) is deref'd and skipped when
dead; primitives are yielded as-is. -/
def liveElem (alive : Nat → Bool) : Slot → Option ObsValue
  | Slot.ref _ tgt => if alive tgt then some (ObsValue.obj tgt) else none
  | Slot.raw p => some (obsOfPrim p)

/-- The full sequence produced by one pass of the set's default iterator /
`keys` / `values` (lines 225-244). -/
def SetState.iterList (t : SetState) (alive : Nat → Bool) : List ObsValue :=
  t.elems.filterMap (liveElem alive)

/-- `WeakRefSet` does not override `size`: the inherited
`Set.prototype.size` reports the raw element count. -/
def SetState.size (t : SetState) : Nat := t.elems.length

/- Reference model for the refinement claim, following the specification's
words: a plain ordered mapping and a plain ordered collection subjected to
the same primitive-only operations. -/

/-- Plain ordered mapping, spec words: lookup. -/
def plainGet : List (Nat × Prim) → Nat → Option Prim
  | [], _ => none
  | kp :: rest, k => if kp.1 = k then some kp.2 else plainGet rest k

/-- Plain ordered mapping, spec words: insert-or-update preserving
insertion order. -/
def plainSet : List (Nat × Prim) → Nat → Prim → List (Nat × Prim)
  | [], k, p => [(k, p)]
  | kp :: rest, k, p =>
      if kp.1 = k then (kp.1, p) :: rest else kp :: plainSet rest k p

/-- Plain ordered mapping, spec words: removal. -/
def plainDelete : List (Nat × Prim) → Nat → List (Nat × Prim)
  | [], _ => []
  | kp :: rest, k => if kp.1 = k then rest else kp :: plainDelete rest k

/-- Plain ordered collection, spec words: removal of one occurrence. -/
def plainErase : List Prim → Prim → List Prim
  | [], _ => []
  | q :: rest, p => if q = p then rest else q :: plainErase rest p

/-- A primitive-payload operation on the map side. -/
inductive MapPrimOp where
  | set (k : Nat) (p : Prim)
  | del (k : Nat)
  | clear
deriving DecidableEq, Repr

/-- Running a primitive-payload operation on a `WeakRefMap`. -/
def MapState.runPrim (alive : Nat → Bool) (s : MapState) : MapPrimOp → MapState
  | MapPrimOp.set k p => s.set k (JsValue.prim p)
  | MapPrimOp.del k => (s.delete alive k).2
  | MapPrimOp.clear => s.clear

/-- Running a primitive-payload operation on the plain ordered mapping. -/
def plainRunMap (pm : List (Nat × Prim)) : MapPrimOp → List (Nat × Prim)
  | MapPrimOp.set k p => plainSet pm k p
  | MapPrimOp.del k => plainDelete pm k
  | MapPrimOp.clear => []

/-- A primitive-payload operation on the set side. -/
inductive SetPrimOp where
  | add (p : Prim)
  | del (p : Prim)
  | clear
deriving DecidableEq, Repr

/-- Running a primitive-payload operation on a `WeakRefSet`. -/
def SetState.runPrim (alive : Nat → Bool) (t : SetState) : SetPrimOp → SetState
  | SetPrimOp.add p => t.add (JsValue.prim p)
  | SetPrimOp.del p => (t.delete alive (JsValue.prim p)).2
  | SetPrimOp.clear => t.clear

/-- Running a primitive-payload operation on the plain ordered
collection. -/
def plainRunSet (pl : List Prim) : SetPrimOp → List Prim
  | SetPrimOp.add p => if p ∈ pl then pl else pl ++ [p]
  | SetPrimOp.del p => plainErase pl p
  | SetPrimOp.clear => []

/-- The rows a `WeakRefMap` holds after primitive-only operations. -/
def rowsOfPlain (pm : List (Nat × Prim)) : List (Nat × Slot) :=
  pm.map (fun kp => (kp.1, Slot.raw kp.2))

/-- Simulation relation between a `WeakRefMap` state and the plain ordered
mapping: the rows coincide (all raw) and no weak tracking exists. -/
def SimMap (s : MapState) (pm : List (Nat × Prim)) : Prop :=
  s.rows = rowsOfPlain pm ∧ s.registry = [] ∧ s.weakRefs = []

/-- Simulation relation between a `WeakRefSet` state and the plain ordered
collection. -/
def SimSet (t : SetState) (pl : List Prim) : Prop :=
  t.elems = pl.map Slot.raw ∧ t.registry = [] ∧ t.membership = []

/- Helper lemmas about the underlying-storage primitives. -/

theorem superGet_superSet_self (l : List (Nat × Slot)) (k : Nat) (v : Slot) :
    superGet (superSet l k v) k = some v := by
  induction l with
  | nil => simp [superSet, superGet]
  | cons kv rest ih =>
      by_cases h : kv.1 = k
      · simp [superSet, h, superGet]
      · simp [superSet, h, superGet, ih]

theorem superGet_superDelete_ne (l : List (Nat × Slot)) (k tok : Nat) (h : k ≠ tok) :
    superGet (superDelete l tok) k = superGet l k := by
  induction l with
  | nil => rfl
  | cons kv rest ih =>
      simp only [superDelete, superGet]
      by_cases h1 : kv.1 = tok
      · rw [if_pos h1]
        have h2 : ¬ kv.1 = k := by rw [h1]; exact fun he => h he.symm
        rw [if_neg h2]
      · rw [if_neg h1]
        simp only [superGet]
        by_cases h2 : kv.1 = k
        · rw [if_pos h2, if_pos h2]
        · rw [if_neg h2, if_neg h2, ih]

theorem superGet_none_of_not_mem (l : List (Nat × Slot)) (k : Nat)
    (h : k ∉ l.map (fun kv => kv.1)) : superGet l k = none := by
  induction l with
  | nil => rfl
  | cons kv rest ih =>
      simp only [List.map_cons, List.mem_cons] at h
      push_neg at h
      have h1 : kv.1 ≠ k := fun he => h.1 he.symm
      simp [superGet, h1, ih h.2]

theorem superGet_superDelete_self (l : List (Nat × Slot)) (k : Nat)
    (h : (l.map (fun kv => kv.1)).Nodup) : superGet (superDelete l k) k = none := by
  induction l with
  | nil => rfl
  | cons kv rest ih =>
      simp only [List.map_cons, List.nodup_cons] at h
      by_cases h1 : kv.1 = k
      · simp only [superDelete, h1, if_pos rfl]
        exact superGet_none_of_not_mem rest k (h1 ▸ h.1)
      · simp [superDelete, h1, superGet, ih h.2]

theorem mem_keys_of_superGet (l : List (Nat × Slot)) (k : Nat) (v : Slot)
    (h : superGet l k = some v) : k ∈ l.map (fun kv => kv.1) := by
  induction l with
  | nil => simp [superGet] at h
  | cons kv rest ih =>
      by_cases h1 : kv.1 = k
      · simp [h1]
      · simp only [superGet, if_neg h1] at h
        simp [ih h]

theorem filterMap_length_lt {α β : Type} (f : α → Option β) (l : List α) (x : α)
    (hx : x ∈ l) (hfx : f x = none) : (l.filterMap f).length < l.length := by
  induction l with
  | nil => simp at hx
  | cons a rest ih =>
      rcases List.mem_cons.1 hx with h | h
      · subst h
        rw [List.filterMap_cons, hfx]
        have := List.length_filterMap_le f rest
        simp only [List.length_cons]
        omega
      · rw [List.filterMap_cons]
        cases f a with
        | none =>
            have := ih h
            simp only [List.length_cons]
            omega
        | some b =>
            have := ih h
            simp only [List.length_cons]
            omega

/- Helper lemmas characterising `WeakRefMap.set`. -/

theorem MapState.set_rows (s : MapState) (key : Nat) (v : JsValue) :
    (s.set key v).rows = superSet s.rows key
      (match v with
       | JsValue.obj oid => Slot.ref s.nextRef oid
       | JsValue.prim p => Slot.raw p) := by
  unfold MapState.set
  cases hg : superGet s.rows key with
  | none => cases v <;> rfl
  | some slot =>
      cases slot with
      | ref rid tgt =>
          by_cases h : rid ∈ s.weakRefs <;> cases v <;> simp [h]
      | raw p => cases v <;> rfl

theorem MapState.set_obj_of_tracked (s : MapState) (key oid rid tgt : Nat)
    (hg : superGet s.rows key = some (Slot.ref rid tgt)) (hm : rid ∈ s.weakRefs) :
    s.set key (JsValue.obj oid) =
      ⟨superSet s.rows key (Slot.ref s.nextRef oid),
       s.weakRefs.filter (fun x => x != rid) ++ [s.nextRef],
       s.registry.filter (fun r => r.unregToken != rid) ++ [⟨oid, key, s.nextRef⟩],
       s.nextRef + 1⟩ := by
  unfold MapState.set
  rw [hg]
  simp [hm]

theorem MapState.set_prim_of_tracked (s : MapState) (key : Nat) (p : Prim) (rid tgt : Nat)
    (hg : superGet s.rows key = some (Slot.ref rid tgt)) (hm : rid ∈ s.weakRefs) :
    s.set key (JsValue.prim p) =
      ⟨superSet s.rows key (Slot.raw p),
       s.weakRefs.filter (fun x => x != rid),
       s.registry.filter (fun r => r.unregToken != rid),
       s.nextRef⟩ := by
  unfold MapState.set
  rw [hg]
  simp [hm]

theorem MapState.set_nextRef_mem_weakRefs (s : MapState) (key oid : Nat) :
    s.nextRef ∈ (s.set key (JsValue.obj oid)).weakRefs := by
  unfold MapState.set
  cases hg : superGet s.rows key with
  | none => simp
  | some slot =>
      cases slot with
      | ref rid tgt => by_cases h : rid ∈ s.weakRefs <;> simp [h]
      | raw p => simp

theorem MapState.delete_tracked (s : MapState) (alive : Nat → Bool) (key rid tgt : Nat)
    (hg : superGet s.rows key = some (Slot.ref rid tgt)) (hm : rid ∈ s.weakRefs) :
    s.delete alive key =
      (alive tgt,
       ⟨superDelete s.rows key,
        s.weakRefs.filter (fun x => x != rid),
        s.registry.filter (fun r => r.unregToken != rid),
        s.nextRef⟩) := by
  unfold MapState.delete
  rw [hg]
  exact if_pos hm

theorem MapState.delete_raw (s : MapState) (alive : Nat → Bool) (key : Nat) (p : Prim)
    (hg : superGet s.rows key = some (Slot.raw p)) :
    s.delete alive key = (true, { s with rows := superDelete s.rows key }) := by
  unfold MapState.delete
  rw [hg]

theorem MapState.delete_none (s : MapState) (alive : Nat → Bool) (key : Nat)
    (hg : superGet s.rows key = none) :
    s.delete alive key = (false, s) := by
  unfold MapState.delete
  rw [hg]

theorem MapState.fireCallback_rows_ne (s : MapState) (reg : Reg) (alive : Nat → Bool)
    (key : Nat) (h : reg.token ≠ key) :
    superGet ((s.fireCallback alive reg)).rows key = superGet s.rows key := by
  unfold MapState.fireCallback
  by_cases hc : reg ∈ s.registry ∧ alive reg.target = false
  · rw [if_pos hc]
    exact superGet_superDelete_ne s.rows key reg.token (fun he => h he.symm)
  · rw [if_neg hc]

/-- Claim C3: the spec says `keys` of the map yields keys of live entries
only, but `WeakRefMap` never overrides `keys`, so the inherited
`Map.prototype.keys` yields the key of a dead-but-unpurged row.  Concretely:
after `set(1, obj)` and reclamation of the object (callback not yet run),
the live iteration is empty and `has` answers `false`, yet `keys()` still
yields the key. -/
theorem c3_keys_divergence :
    ((MapState.empty.set 1 (JsValue.obj 7)).inheritedKeys = [1]) ∧
    ((MapState.empty.set 1 (JsValue.obj 7)).iterList (fun _ => false) = []) ∧
    ((MapState.empty.set 1 (JsValue.obj 7)).has (fun _ => false) 1 = false) :=
  ⟨rfl, rfl, rfl⟩

/-- Claim C7: `has` answers `true` for a key explicitly set to the
`undefined` marker (stored as a raw primitive row), and `false` for a key
that was never set (no row), so `has` does not collapse onto `get`'s
absence notion. -/
theorem c7_has_undefined_marker (s : MapState) (alive : Nat → Bool) (key : Nat) :
    ((s.set key (JsValue.prim Prim.undef)).has alive key = true) ∧
    (superGet s.rows key = none → s.has alive key = false) := by
  constructor
  · have h := MapState.set_rows s key (JsValue.prim Prim.undef)
    unfold MapState.has
    rw [h]
    rw [superGet_superSet_self]
  · intro h
    unfold MapState.has
    rw [h]

/-- Witness for C7 at a concrete input: key 3 never set in the empty map,
then set to the `undefined` marker. -/
theorem c7_witness :
    ((MapState.empty.set 3 (JsValue.prim Prim.undef)).has (fun _ => false) 3 = true) ∧
    (MapState.empty.has (fun _ => false) 3 = false) :=
  ⟨(c7_has_undefined_marker MapState.empty (fun _ => false) 3).1,
   (c7_has_undefined_marker MapState.empty (fun _ => false) 3).2 rfl⟩

/-- Claim C1: when a key currently holds a tracked weak-wrapped slot,
`set(key, newValue)` cancels the old slot's registration and drops its
side-table tracking before storing the new slot: afterwards no registry
cell carries the old wrapper's unregister token, the old wrapper is gone
from `#weakRefs`, and firing any surviving pre-existing cell leaves the
slot stored under `key` untouched, so a late reclamation notification for
the old value can never remove the new one. -/
theorem c1_set_cancels_old_registration (s : MapState) (key : Nat) (v : JsValue)
    (rid tgt : Nat) (hWF : s.WF)
    (hg : superGet s.rows key = some (Slot.ref rid tgt)) (hm : rid ∈ s.weakRefs) :
    (∀ reg ∈ (s.set key v).registry, reg.unregToken ≠ rid) ∧
    (rid ∉ (s.set key v).weakRefs) ∧
    (∀ reg ∈ (s.set key v).registry, reg ∈ s.registry →
       ∀ alive, superGet (((s.set key v).fireCallback alive reg)).rows key
         = superGet (s.set key v).rows key) := by
  obtain ⟨hfresh, hreg⟩ := hWF
  have hrl : rid < s.nextRef := hfresh rid hm
  have hTok : ∀ reg : Reg, reg ∈ s.registry → reg.unregToken ≠ rid → reg.token ≠ key := by
    intro reg hr hne hk
    have h2 := (hreg reg hr).2
    rw [hk, hg] at h2
    simp only [Option.some.injEq, Slot.ref.injEq] at h2
    exact hne h2.1.symm
  cases v with
  | obj oid =>
      have hS := MapState.set_obj_of_tracked s key oid rid tgt hg hm
      have hRg : (s.set key (JsValue.obj oid)).registry =
          s.registry.filter (fun r => r.unregToken != rid) ++
            [(⟨oid, key, s.nextRef⟩ : Reg)] := by rw [hS]
      have hWk : (s.set key (JsValue.obj oid)).weakRefs =
          s.weakRefs.filter (fun x => x != rid) ++ [s.nextRef] := by rw [hS]
      have hA : ∀ reg ∈ (s.set key (JsValue.obj oid)).registry, reg.unregToken ≠ rid := by
        intro reg hmem
        rw [hRg] at hmem
        rcases List.mem_append.1 hmem with hf | hnew
        · have hb := (List.mem_filter.1 hf).2
          intro he
          rw [he] at hb
          simp at hb
        · rw [List.mem_singleton] at hnew
          rw [hnew]
          intro he
          simp only at he
          omega
      refine ⟨hA, ?_, ?_⟩
      · rw [hWk]
        intro hmem
        rcases List.mem_append.1 hmem with hf | hnew
        · have hb := (List.mem_filter.1 hf).2
          simp at hb
        · rw [List.mem_singleton] at hnew
          omega
      · intro reg hmem hold alive
        exact MapState.fireCallback_rows_ne _ reg alive key (hTok reg hold (hA reg hmem))
  | prim p =>
      have hS := MapState.set_prim_of_tracked s key p rid tgt hg hm
      have hRg : (s.set key (JsValue.prim p)).registry =
          s.registry.filter (fun r => r.unregToken != rid) := by rw [hS]
      have hWk : (s.set key (JsValue.prim p)).weakRefs =
          s.weakRefs.filter (fun x => x != rid) := by rw [hS]
      have hA : ∀ reg ∈ (s.set key (JsValue.prim p)).registry, reg.unregToken ≠ rid := by
        intro reg hmem
        rw [hRg] at hmem
        have hb := (List.mem_filter.1 hmem).2
        intro he
        rw [he] at hb
        simp at hb
      refine ⟨hA, ?_, ?_⟩
      · rw [hWk]
        intro hmem
        have hb := (List.mem_filter.1 hmem).2
        simp at hb
      · intro reg hmem hold alive
        exact MapState.fireCallback_rows_ne _ reg alive key (hTok reg hold (hA reg hmem))

/-- Witness for C1: the map `{1 ↦ obj 10}` obtained by one `set`, then
re-`set` with `obj 20`; the old wrapper (identity 0) is fully cancelled. -/
theorem c1_witness :
    (MapState.empty.set 1 (JsValue.obj 10)).WF ∧
    superGet (MapState.empty.set 1 (JsValue.obj 10)).rows 1 = some (Slot.ref 0 10) ∧
    0 ∈ (MapState.empty.set 1 (JsValue.obj 10)).weakRefs ∧
    (∀ reg ∈ ((MapState.empty.set 1 (JsValue.obj 10)).set 1 (JsValue.obj 20)).registry,
        reg.unregToken ≠ 0) :=
  ⟨by decide, by decide, by decide,
   (c1_set_cancels_old_registration (MapState.empty.set 1 (JsValue.obj 10)) 1
      (JsValue.obj 20) 0 10 (by decide) (by decide) (by decide)).1⟩

/-- Claim C2, refuted on the code: `clear` swaps in a fresh registry
instead of unregistering, so a registration created before the `clear`
survives it; when its referent died before the `clear` and its cleanup
was already enqueued by the host, the callback `key => super.delete(key)`
still fires afterwards and deletes the entry re-inserted under the reused
key.  Concretely: `set(1, obj 10)`, object 10 reclaimed, `clear()`,
`set(1, obj 20)` — the pre-clear cell is still registered, the new row
for key 1 is stored, and firing the stale cell removes that new row. -/
theorem c2_clear_leaves_stale_registration :
    ((⟨10, 1, 0⟩ : Reg) ∈
       (((MapState.empty.set 1 (JsValue.obj 10)).clear).set 1
         (JsValue.obj 20)).registry) ∧
    (superGet ((((MapState.empty.set 1 (JsValue.obj 10)).clear).set 1
         (JsValue.obj 20)).rows) 1 = some (Slot.ref 1 20)) ∧
    (superGet (((((MapState.empty.set 1 (JsValue.obj 10)).clear).set 1
         (JsValue.obj 20)).fireCallback (fun n => n == 20) ⟨10, 1, 0⟩).rows) 1
       = none) :=
  ⟨by decide, by decide, by decide⟩

/-- Claim C4: `delete(key)` returns `false` when no slot exists; on a
tracked weak-wrapped slot it cancels the registration, removes the row and
returns liveness of the referent at the moment of deletion; on a raw
primitive slot it returns what the underlying deletion reports (`true`,
the row exists); and `delete` right after a successful `set` of a
still-referenced object returns `true`. -/
theorem c4_delete_contract (s : MapState) (alive : Nat → Bool) (key : Nat)
    (hkeys : (s.rows.map (fun kv => kv.1)).Nodup) :
    (superGet s.rows key = none → (s.delete alive key).1 = false) ∧
    (∀ rid tgt, superGet s.rows key = some (Slot.ref rid tgt) → rid ∈ s.weakRefs →
       ((s.delete alive key).1 = alive tgt ∧
        (∀ reg ∈ (s.delete alive key).2.registry, reg.unregToken ≠ rid) ∧
        superGet (s.delete alive key).2.rows key = none)) ∧
    (∀ p, superGet s.rows key = some (Slot.raw p) →
       ((s.delete alive key).1 = true ∧
        (s.delete alive key).2.rows = superDelete s.rows key)) ∧
    (∀ oid, alive oid = true → ((s.set key (JsValue.obj oid)).delete alive key).1 = true) := by
  refine ⟨?_, ?_, ?_, ?_⟩
  · intro h
    rw [MapState.delete_none s alive key h]
  · intro rid tgt h hmem
    rw [MapState.delete_tracked s alive key rid tgt h hmem]
    refine ⟨rfl, ?_, ?_⟩
    · intro reg hr
      simp only at hr
      have hb := (List.mem_filter.1 hr).2
      intro he
      rw [he] at hb
      simp at hb
    · simp only
      exact superGet_superDelete_self s.rows key hkeys
  · intro p h
    rw [MapState.delete_raw s alive key p h]
    exact ⟨rfl, rfl⟩
  · intro oid ha
    have hgg : superGet (s.set key (JsValue.obj oid)).rows key
        = some (Slot.ref s.nextRef oid) := by
      rw [MapState.set_rows s key (JsValue.obj oid)]
      exact superGet_superSet_self _ _ _
    have hnx : (s.set key (JsValue.obj oid)).nextRef = s.nextRef + 1 := by
      unfold MapState.set
      cases hg2 : superGet s.rows key with
      | none => rfl
      | some slot =>
          cases slot with
          | ref rid2 tgt2 => by_cases h2 : rid2 ∈ s.weakRefs <;> simp [h2]
          | raw p2 => rfl
    rw [MapState.delete_tracked (s.set key (JsValue.obj oid)) alive key s.nextRef oid hgg
      (MapState.set_nextRef_mem_weakRefs s key oid)]
    exact ha

/-- Witness for C4: the map `{1 ↦ obj 10, 2 ↦ raw 9}` with `obj 10` live:
deleting key 3 (never set) reports `false`, deleting key 1 reports `true`,
deleting key 2 reports `true`. -/
theorem c4_witness :
    ((((MapState.empty.set 1 (JsValue.obj 10)).set 2
        (JsValue.prim (Prim.val 9))).rows.map (fun kv => kv.1)).Nodup ∧
     (((MapState.empty.set 1 (JsValue.obj 10)).set 2
        (JsValue.prim (Prim.val 9))).delete (fun _ => true) 3).1 = false ∧
     (((MapState.empty.set 1 (JsValue.obj 10)).set 2
        (JsValue.prim (Prim.val 9))).delete (fun _ => true) 1).1 = true ∧
     (((MapState.empty.set 1 (JsValue.obj 10)).set 2
        (JsValue.prim (Prim.val 9))).delete (fun _ => true) 2).1 = true) :=
  ⟨by decide,
   (c4_delete_contract ((MapState.empty.set 1 (JsValue.obj 10)).set 2
      (JsValue.prim (Prim.val 9))) (fun _ => true) 3 (by decide)).1 (by decide),
   by
     have h := ((c4_delete_contract ((MapState.empty.set 1 (JsValue.obj 10)).set 2
        (JsValue.prim (Prim.val 9))) (fun _ => true) 1 (by decide)).2.1 0 10
        (by decide) (by decide)).1
     rw [h],
   ((c4_delete_contract ((MapState.empty.set 1 (JsValue.obj 10)).set 2
      (JsValue.prim (Prim.val 9))) (fun _ => true) 2 (by decide)).2.2.1
      (Prim.val 9) (by decide)).1⟩

theorem memLookup_memSet_self (m : List (Nat × Nat)) (oid rid : Nat) :
    memLookup (memSet m oid rid) oid = some rid := by
  induction m with
  | nil => simp [memSet, memLookup]
  | cons kv rest ih =>
      by_cases h : kv.1 = oid
      · simp [memSet, h, memLookup]
      · simp [memSet, h, memLookup, ih]

theorem mem_superAdd_self (l : List Slot) (x : Slot) : x ∈ superAdd l x := by
  unfold superAdd
  by_cases h : x ∈ l
  · rw [if_pos h]; exact h
  · rw [if_neg h]; exact List.mem_append_right l (List.mem_singleton.2 rfl)

theorem mem_superAdd_of_mem (l : List Slot) (x y : Slot) (h : y ∈ l) :
    y ∈ superAdd l x := by
  unfold superAdd
  by_cases h2 : x ∈ l
  · rw [if_pos h2]; exact h
  · rw [if_neg h2]; exact List.mem_append_left _ h

theorem SetState.add_obj_of_not_mem (t : SetState) (oid : Nat)
    (h : (memLookup t.membership oid).isSome = false) :
    t.add (JsValue.obj oid) =
      ⟨superAdd t.elems (Slot.ref t.nextRef oid),
       memSet t.membership oid t.nextRef,
       t.registry ++ [⟨oid, t.nextRef⟩],
       t.nextRef + 1⟩ := by
  unfold SetState.add SetState.membershipHas
  simp [h]

theorem SetState.add_obj_of_mem (t : SetState) (oid : Nat)
    (h : (memLookup t.membership oid).isSome = true) :
    t.add (JsValue.obj oid) = t := by
  unfold SetState.add SetState.membershipHas
  simp [h]

/-- Claim C6: one pass of the default iterator (map or set) never yields an
entry whose tracked object payload is dead, and — the iterator being a pure
function of the container state and the heap, with each call starting a
fresh pass — two passes with no mutation and no reclamation in between
yield the same sequence. -/
theorem c6_iteration_live_only (s : MapState) (t : SetState) (alive : Nat → Bool) :
    (∀ kv ∈ s.iterList alive, ∀ oid, kv.2 = ObsValue.obj oid → alive oid = true) ∧
    (∀ v ∈ t.iterList alive, ∀ oid, v = ObsValue.obj oid → alive oid = true) ∧
    (s.iterList alive = s.iterList alive ∧ t.iterList alive = t.iterList alive) := by
  refine ⟨?_, ?_, rfl, rfl⟩
  · intro kv hmem oid hobj
    rcases List.mem_filterMap.1 hmem with ⟨a, _, hfa⟩
    unfold MapState.liveEntry at hfa
    split at hfa
    · rename_i rid2 tgt2 _
      split at hfa
      · split at hfa
        · rename_i hal
          injection hfa with hkv
          have h2 : tgt2 = oid := by
            have h3 : (a.1, ObsValue.obj tgt2).2 = ObsValue.obj oid := by
              rw [hkv]; exact hobj
            simpa using h3
          rw [← h2]
          exact hal
        · exact Option.noConfusion hfa
      · injection hfa with hkv
        have h3 : (a.1, ObsValue.wrapper rid2 tgt2).2 = ObsValue.obj oid := by
          rw [hkv]; exact hobj
        simp at h3
    · rename_i p _
      injection hfa with hkv
      have h3 : (a.1, obsOfPrim p).2 = ObsValue.obj oid := by
        rw [hkv]; exact hobj
      cases p <;> simp [obsOfPrim] at h3
  · intro v hmem oid hobj
    rcases List.mem_filterMap.1 hmem with ⟨a, ha, hfa⟩
    unfold liveElem at hfa
    split at hfa
    · rename_i rid2 tgt2
      split at hfa
      · rename_i hal
        injection hfa with hkv
        rw [← hkv] at hobj
        have h2 : tgt2 = oid := by simpa using hobj
        rw [← h2]
        exact hal
      · exact Option.noConfusion hfa
    · rename_i p2
      injection hfa with hkv
      rw [← hkv] at hobj
      cases p2 <;> simp [obsOfPrim] at hobj

/-- Witness for C6: from the map `{1 ↦ obj 5, 2 ↦ obj 6}` with only
object 5 live, the pass yields the entry for object 5, whose payload the
theorem certifies live. -/
theorem c6_witness : (fun n => n == 5) 5 = true :=
  (c6_iteration_live_only ((MapState.empty.set 1 (JsValue.obj 5)).set 2 (JsValue.obj 6))
      SetState.empty (fun n => n == 5)).1
    (1, ObsValue.obj 5) (by decide) 5 rfl

/-- Claim C8: `WeakRefSet.add` is identity-based: a value already tracked
in `#membership` is a no-op returning the set unchanged; a new object gets
its own wrapper, and two distinct object identities added in sequence are
both retained while re-adding the same identity changes nothing. -/
theorem c8_add_identity_membership (t : SetState) (oid : Nat) :
    ((memLookup t.membership oid).isSome = true → t.add (JsValue.obj oid) = t) ∧
    ((memLookup t.membership oid).isSome = false →
       (Slot.ref t.nextRef oid ∈ (t.add (JsValue.obj oid)).elems ∧
        memLookup (t.add (JsValue.obj oid)).membership oid = some t.nextRef ∧
        (t.add (JsValue.obj oid)).add (JsValue.obj oid) = t.add (JsValue.obj oid) ∧
        (∀ b, b ≠ oid →
           (memLookup (t.add (JsValue.obj oid)).membership b).isSome = false →
           Slot.ref t.nextRef oid ∈ ((t.add (JsValue.obj oid)).add (JsValue.obj b)).elems ∧
           Slot.ref (t.add (JsValue.obj oid)).nextRef b
             ∈ ((t.add (JsValue.obj oid)).add (JsValue.obj b)).elems))) := by
  constructor
  · exact SetState.add_obj_of_mem t oid
  · intro h
    rw [SetState.add_obj_of_not_mem t oid h]
    refine ⟨mem_superAdd_self _ _, memLookup_memSet_self _ _ _, ?_, ?_⟩
    · apply SetState.add_obj_of_mem
      rw [memLookup_memSet_self]
      rfl
    · intro b _ hnb
      rw [SetState.add_obj_of_not_mem _ b hnb]
      exact ⟨mem_superAdd_of_mem _ _ _ (mem_superAdd_self _ _), mem_superAdd_self _ _⟩

/-- Witness for C8: adding objects 5 then 6 to the empty set retains both
wrappers; re-adding 5 is a no-op. -/
theorem c8_witness :
    ((memLookup SetState.empty.membership 5).isSome = false) ∧
    (Slot.ref 0 5 ∈ (SetState.empty.add (JsValue.obj 5)).elems ∧
     memLookup (SetState.empty.add (JsValue.obj 5)).membership 5 = some 0 ∧
     (SetState.empty.add (JsValue.obj 5)).add (JsValue.obj 5)
       = SetState.empty.add (JsValue.obj 5) ∧
     (Slot.ref 0 5 ∈ ((SetState.empty.add (JsValue.obj 5)).add (JsValue.obj 6)).elems ∧
      Slot.ref (SetState.empty.add (JsValue.obj 5)).nextRef 6
        ∈ ((SetState.empty.add (JsValue.obj 5)).add (JsValue.obj 6)).elems)) :=
  ⟨by decide,
   by
     have h := (c8_add_identity_membership SetState.empty 5).2 (by decide)
     exact ⟨h.1, h.2.1, h.2.2.1, h.2.2.2 6 (by decide) (by decide)⟩⟩

/-- Claim C9: the read operations are embedded as pure functions of the
container state because their source bodies (map `get`/`has`, set `has`)
perform no assignment to the rows, the side tables or the registry; in
particular a read that observes a dead tracked slot reports absence while
the very state it queried still holds the dead row (only the callback or a
later mutation purges it). -/
theorem c9_reads_pure (s : MapState) (t : SetState) (alive : Nat → Bool)
    (key rid tgt oid : Nat) :
    (superGet s.rows key = some (Slot.ref rid tgt) → rid ∈ s.weakRefs →
       alive tgt = false →
       (s.get alive key = ObsValue.undef ∧ s.has alive key = false ∧
        key ∈ s.inheritedKeys)) ∧
    ((memLookup t.membership oid).isSome = true → alive oid = false →
       t.has alive (JsValue.obj oid) = false) := by
  constructor
  · intro hg hw hal
    refine ⟨?_, ?_, mem_keys_of_superGet s.rows key _ hg⟩
    · unfold MapState.get
      rw [hg]
      simp [hw, hal]
    · unfold MapState.has
      rw [hg]
      simp [hw, hal]
  · intro hml hal
    have h1 : t.has alive (JsValue.obj oid)
        = (match memLookup t.membership oid with
           | none => false
           | some _ => alive oid) := rfl
    rw [h1]
    cases hml2 : memLookup t.membership oid with
    | none => simp [hml2] at hml
    | some rid2 => exact hal

/-- Witness for C9: the map `{1 ↦ obj 10}` and the set `{obj 5}` with
everything reclaimed: both reads report absence while the dead rows are
still stored. -/
theorem c9_witness :
    (superGet (MapState.empty.set 1 (JsValue.obj 10)).rows 1 = some (Slot.ref 0 10) ∧
     (MapState.empty.set 1 (JsValue.obj 10)).get (fun _ => false) 1 = ObsValue.undef ∧
     (MapState.empty.set 1 (JsValue.obj 10)).has (fun _ => false) 1 = false ∧
     1 ∈ (MapState.empty.set 1 (JsValue.obj 10)).inheritedKeys) ∧
    ((SetState.empty.add (JsValue.obj 5)).has (fun _ => false) (JsValue.obj 5) = false) :=
  ⟨by
     have h := (c9_reads_pure (MapState.empty.set 1 (JsValue.obj 10)) SetState.empty
        (fun _ => false) 1 0 10 5).1 (by decide) (by decide) rfl
     exact ⟨by decide, h.1, h.2.1, h.2.2⟩,
   (c9_reads_pure MapState.empty (SetState.empty.add (JsValue.obj 5))
      (fun _ => false) 1 0 10 5).2 (by decide) rfl⟩

/-- Claim C10: `size` is the inherited raw row count, so a full iteration
pass yields at most `size` entries, and strictly fewer as soon as some
tracked row is dead but not yet purged. -/
theorem c10_size_counts_dead_rows (s : MapState) (t : SetState) (alive : Nat → Bool) :
    ((s.iterList alive).length ≤ s.size) ∧
    ((t.iterList alive).length ≤ t.size) ∧
    (∀ key rid tgt, (key, Slot.ref rid tgt) ∈ s.rows → rid ∈ s.weakRefs →
       alive tgt = false → (s.iterList alive).length < s.size) ∧
    (∀ rid tgt, Slot.ref rid tgt ∈ t.elems → alive tgt = false →
       (t.iterList alive).length < t.size) := by
  refine ⟨List.length_filterMap_le _ _, List.length_filterMap_le _ _, ?_, ?_⟩
  · intro key rid tgt hmem hw hal
    exact filterMap_length_lt _ s.rows (key, Slot.ref rid tgt) hmem
      (by simp [MapState.liveEntry, hw, hal])
  · intro rid tgt hmem hal
    exact filterMap_length_lt _ t.elems (Slot.ref rid tgt) hmem
      (by simp [liveElem, hal])

/-- Witness for C10: in the map `{1 ↦ obj 10}` and the set `{obj 5}` with
everything reclaimed, iteration yields strictly fewer entries than
`size`. -/
theorem c10_witness :
    (((MapState.empty.set 1 (JsValue.obj 10)).iterList (fun _ => false)).length
       < (MapState.empty.set 1 (JsValue.obj 10)).size) ∧
    (((SetState.empty.add (JsValue.obj 5)).iterList (fun _ => false)).length
       < (SetState.empty.add (JsValue.obj 5)).size) :=
  ⟨(c10_size_counts_dead_rows (MapState.empty.set 1 (JsValue.obj 10))
      (SetState.empty.add (JsValue.obj 5)) (fun _ => false)).2.2.1
      1 0 10 (by decide) (by decide) rfl,
   (c10_size_counts_dead_rows (MapState.empty.set 1 (JsValue.obj 10))
      (SetState.empty.add (JsValue.obj 5)) (fun _ => false)).2.2.2
      0 5 (by decide) rfl⟩

/- Lemmas for the primitive-only refinement (C5). -/

theorem rowsOfPlain_cons (kp : Nat × Prim) (rest : List (Nat × Prim)) :
    rowsOfPlain (kp :: rest) = (kp.1, Slot.raw kp.2) :: rowsOfPlain rest := rfl

theorem raw_mem_map (pl : List Prim) (p : Prim) :
    Slot.raw p ∈ pl.map Slot.raw ↔ p ∈ pl := by
  constructor
  · intro h2
    rcases List.mem_map.1 h2 with ⟨q, hq, heq⟩
    injection heq with h3
    rw [← h3]
    exact hq
  · exact fun h2 => List.mem_map_of_mem Slot.raw h2

theorem superGet_rowsOfPlain (pm : List (Nat × Prim)) (k : Nat) :
    superGet (rowsOfPlain pm) k = (plainGet pm k).map Slot.raw := by
  induction pm with
  | nil => rfl
  | cons kp rest ih =>
      rw [rowsOfPlain_cons]
      by_cases h : kp.1 = k
      · simp [superGet, plainGet, h]
      · simp [superGet, plainGet, h, ih]

theorem superSet_rowsOfPlain (pm : List (Nat × Prim)) (k : Nat) (p : Prim) :
    superSet (rowsOfPlain pm) k (Slot.raw p) = rowsOfPlain (plainSet pm k p) := by
  induction pm with
  | nil => rfl
  | cons kp rest ih =>
      rw [rowsOfPlain_cons]
      by_cases h : kp.1 = k
      · simp [superSet, plainSet, h, rowsOfPlain_cons]
      · simp [superSet, plainSet, h, rowsOfPlain_cons, ih]

theorem superDelete_rowsOfPlain (pm : List (Nat × Prim)) (k : Nat) :
    superDelete (rowsOfPlain pm) k = rowsOfPlain (plainDelete pm k) := by
  induction pm with
  | nil => rfl
  | cons kp rest ih =>
      rw [rowsOfPlain_cons]
      by_cases h : kp.1 = k
      · simp [superDelete, plainDelete, h]
      · simp [superDelete, plainDelete, h, rowsOfPlain_cons, ih]

theorem plainDelete_of_none (pm : List (Nat × Prim)) (k : Nat)
    (h : plainGet pm k = none) : plainDelete pm k = pm := by
  induction pm with
  | nil => rfl
  | cons kp rest ih =>
      by_cases h1 : kp.1 = k
      · simp [plainGet, h1] at h
      · simp only [plainGet, if_neg h1] at h
        simp [plainDelete, h1, ih h]

theorem superAdd_raw (pl : List Prim) (p : Prim) :
    superAdd (pl.map Slot.raw) (Slot.raw p)
      = (if p ∈ pl then pl else pl ++ [p]).map Slot.raw := by
  unfold superAdd
  by_cases h : p ∈ pl
  · rw [if_pos ((raw_mem_map pl p).2 h), if_pos h]
  · rw [if_neg (fun hc => h ((raw_mem_map pl p).1 hc)), if_neg h, List.map_append]
    rfl

theorem superDeleteElem_raw (pl : List Prim) (p : Prim) :
    superDeleteElem (pl.map Slot.raw) (Slot.raw p) = (plainErase pl p).map Slot.raw := by
  induction pl with
  | nil => rfl
  | cons q rest ih =>
      by_cases h : q = p
      · simp [superDeleteElem, plainErase, h]
      · have h2 : Slot.raw q ≠ Slot.raw p := fun he => h (by injection he)
        simp [superDeleteElem, plainErase, h, h2, ih]

theorem MapState.set_prim_of_raw (s : MapState) (key : Nat) (p : Prim)
    (h : ∀ rid tgt, superGet s.rows key ≠ some (Slot.ref rid tgt)) :
    s.set key (JsValue.prim p) = { s with rows := superSet s.rows key (Slot.raw p) } := by
  unfold MapState.set
  cases hg : superGet s.rows key with
  | none => rfl
  | some slot =>
      cases slot with
      | ref rid tgt => exact absurd hg (h rid tgt)
      | raw q => rfl

theorem simMap_run (alive : Nat → Bool) (s : MapState) (pm : List (Nat × Prim))
    (h : SimMap s pm) (op : MapPrimOp) :
    SimMap (s.runPrim alive op) (plainRunMap pm op) := by
  obtain ⟨hr, hg, hw⟩ := h
  cases op with
  | set k p =>
      show SimMap (s.set k (JsValue.prim p)) (plainSet pm k p)
      have hnr : ∀ rid tgt, superGet s.rows k ≠ some (Slot.ref rid tgt) := by
        intro rid tgt hc
        rw [hr, superGet_rowsOfPlain] at hc
        cases hq : plainGet pm k with
        | none => rw [hq] at hc; simp at hc
        | some q => rw [hq] at hc; simp at hc
      rw [MapState.set_prim_of_raw s k p hnr]
      refine ⟨?_, hg, hw⟩
      show superSet s.rows k (Slot.raw p) = rowsOfPlain (plainSet pm k p)
      rw [hr, superSet_rowsOfPlain]
  | del k =>
      show SimMap ((s.delete alive k).2) (plainDelete pm k)
      cases hq : plainGet pm k with
      | none =>
          have hsg : superGet s.rows k = none := by
            rw [hr, superGet_rowsOfPlain, hq]; rfl
          rw [MapState.delete_none s alive k hsg, plainDelete_of_none pm k hq]
          exact ⟨hr, hg, hw⟩
      | some q =>
          have hsg : superGet s.rows k = some (Slot.raw q) := by
            rw [hr, superGet_rowsOfPlain, hq]; rfl
          rw [MapState.delete_raw s alive k q hsg]
          refine ⟨?_, hg, hw⟩
          show superDelete s.rows k = rowsOfPlain (plainDelete pm k)
          rw [hr, superDelete_rowsOfPlain]
  | clear => exact ⟨rfl, hg, rfl⟩

theorem simMap_foldl (alive : Nat → Bool) (ops : List MapPrimOp) (s : MapState)
    (pm : List (Nat × Prim)) (h : SimMap s pm) :
    SimMap (ops.foldl (MapState.runPrim alive) s) (ops.foldl plainRunMap pm) := by
  induction ops generalizing s pm with
  | nil => exact h
  | cons op rest ih => exact ih _ _ (simMap_run alive s pm h op)

theorem simMap_iterList (alive : Nat → Bool) (s : MapState) (pm : List (Nat × Prim))
    (h : SimMap s pm) :
    s.iterList alive = pm.map (fun kp => (kp.1, obsOfPrim kp.2)) := by
  obtain ⟨hr, _, _⟩ := h
  unfold MapState.iterList
  rw [hr]
  clear hr
  induction pm with
  | nil => rfl
  | cons kp rest ih =>
      rw [rowsOfPlain_cons, List.filterMap_cons]
      have hf : s.liveEntry alive (kp.1, Slot.raw kp.2) = some (kp.1, obsOfPrim kp.2) := rfl
      rw [hf, ih]
      rfl

theorem simMap_get (alive : Nat → Bool) (s : MapState) (pm : List (Nat × Prim))
    (h : SimMap s pm) (k : Nat) :
    s.get alive k = obsOfGet (plainGet pm k) := by
  obtain ⟨hr, _, _⟩ := h
  unfold MapState.get
  rw [hr, superGet_rowsOfPlain]
  cases plainGet pm k with
  | none => rfl
  | some q => rfl

theorem simMap_has (alive : Nat → Bool) (s : MapState) (pm : List (Nat × Prim))
    (h : SimMap s pm) (k : Nat) :
    s.has alive k = (plainGet pm k).isSome := by
  obtain ⟨hr, _, _⟩ := h
  unfold MapState.has
  rw [hr, superGet_rowsOfPlain]
  cases plainGet pm k with
  | none => rfl
  | some q => rfl

theorem simSet_run (alive : Nat → Bool) (t : SetState) (pl : List Prim)
    (h : SimSet t pl) (op : SetPrimOp) :
    SimSet (t.runPrim alive op) (plainRunSet pl op) := by
  obtain ⟨he, hg, hm⟩ := h
  cases op with
  | add p =>
      show SimSet (t.add (JsValue.prim p)) (if p ∈ pl then pl else pl ++ [p])
      have h1 : t.add (JsValue.prim p)
          = { t with elems := superAdd t.elems (Slot.raw p) } := by
        unfold SetState.add SetState.membershipHas
        simp
      rw [h1]
      refine ⟨?_, hg, hm⟩
      show superAdd t.elems (Slot.raw p) = _
      rw [he, superAdd_raw]
  | del p =>
      show SimSet ((t.delete alive (JsValue.prim p)).2) (plainErase pl p)
      have h1 : (t.delete alive (JsValue.prim p)).2
          = { t with elems := superDeleteElem t.elems (Slot.raw p) } := rfl
      rw [h1]
      refine ⟨?_, hg, hm⟩
      show superDeleteElem t.elems (Slot.raw p) = _
      rw [he, superDeleteElem_raw]
  | clear => exact ⟨rfl, hg, rfl⟩

theorem simSet_foldl (alive : Nat → Bool) (ops : List SetPrimOp) (t : SetState)
    (pl : List Prim) (h : SimSet t pl) :
    SimSet (ops.foldl (SetState.runPrim alive) t) (ops.foldl plainRunSet pl) := by
  induction ops generalizing t pl with
  | nil => exact h
  | cons op rest ih => exact ih _ _ (simSet_run alive t pl h op)

theorem simSet_iterList (alive : Nat → Bool) (t : SetState) (pl : List Prim)
    (h : SimSet t pl) :
    t.iterList alive = pl.map obsOfPrim := by
  obtain ⟨he, _, _⟩ := h
  unfold SetState.iterList
  rw [he]
  clear he
  induction pl with
  | nil => rfl
  | cons q rest ih =>
      rw [List.map_cons, List.filterMap_cons]
      have hf : liveElem alive (Slot.raw q) = some (obsOfPrim q) := rfl
      rw [hf, ih]
      rfl

theorem simSet_has (alive : Nat → Bool) (t : SetState) (pl : List Prim)
    (h : SimSet t pl) (p : Prim) :
    t.has alive (JsValue.prim p) = decide (p ∈ pl) := by
  obtain ⟨he, _, _⟩ := h
  have h1 : t.has alive (JsValue.prim p) = decide (Slot.raw p ∈ t.elems) := rfl
  rw [h1, he, decide_eq_decide]
  exact raw_mem_map pl p

/-- Claim C5: for every finite sequence of primitive-payload `set`/`add`,
`delete`, `clear` operations, the `WeakRefMap` (resp. `WeakRefSet`)
starting empty reaches an observable state — iteration order, `get`
results, `has` results — identical to a plain ordered mapping (resp.
collection) subjected to the same operations. -/
theorem c5_primitive_refinement (mops : List MapPrimOp) (sops : List SetPrimOp)
    (alive : Nat → Bool) :
    ((mops.foldl (MapState.runPrim alive) MapState.empty).iterList alive
       = (mops.foldl plainRunMap []).map (fun kp => (kp.1, obsOfPrim kp.2))) ∧
    (∀ k, (mops.foldl (MapState.runPrim alive) MapState.empty).get alive k
       = obsOfGet (plainGet (mops.foldl plainRunMap []) k)) ∧
    (∀ k, (mops.foldl (MapState.runPrim alive) MapState.empty).has alive k
       = (plainGet (mops.foldl plainRunMap []) k).isSome) ∧
    ((sops.foldl (SetState.runPrim alive) SetState.empty).iterList alive
       = (sops.foldl plainRunSet []).map obsOfPrim) ∧
    (∀ p, (sops.foldl (SetState.runPrim alive) SetState.empty).has alive (JsValue.prim p)
       = decide (p ∈ sops.foldl plainRunSet [])) := by
  have hm := simMap_foldl alive mops MapState.empty [] ⟨rfl, rfl, rfl⟩
  have hs := simSet_foldl alive sops SetState.empty [] ⟨rfl, rfl, rfl⟩
  exact ⟨simMap_iterList alive _ _ hm, fun k => simMap_get alive _ _ hm k,
    fun k => simMap_has alive _ _ hm k, simSet_iterList alive _ _ hs,
    fun p => simSet_has alive _ _ hs p⟩

end WeakRefCollections
